import Mathlib

/-!
Shallow embedding of the fixed-point currency engine in `src/Lesson 2/Task-1.ts`
(the `Currency` class, its `parse` helper and the numeric utilities around them).

JavaScript numbers are modelled as rationals (`ℚ`): on the inputs exercised here
the host arithmetic is exact, and the places where a non-finite host value (NaN or
an infinity) can arise are modelled explicitly (`ParseOut.nan`, `COut.nonFinite`)
rather than folded into `ℚ`.
-/

namespace CurrencyTs

/-! ### Host numeric primitives -/

/-- `Math.floor` on a rational. -/
def jsFloor (q : ℚ) : ℤ := ⌊q⌋

/-- `Math.ceil` on a rational. -/
def jsCeil (q : ℚ) : ℤ := -⌊-q⌋

/-- Truncation toward zero, as performed by the `~~` double-bitwise-not idiom
and by the remainder operator `%` (for finite arguments). -/
def jsTrunc (q : ℚ) : ℤ := if q < 0 then jsCeil q else jsFloor q

/-- `const round = (v: number) => Math.round(v)`.  `Math.round v` is the
integer `⌊v + 1/2⌋`: nearest integer, with ties rounded toward `+∞`. -/
def jsRound (q : ℚ) : ℤ := ⌊q + 1 / 2⌋

/-- `const pow = (p: number) => Math.pow(10, p)`, at the natural-number
exponents used by the engine. -/
def pow10 (p : ℕ) : ℚ := 10 ^ p

/-- `ToInt32`, the conversion applied by `~~` : truncate toward zero, then
reduce modulo `2^32` into `[-2^31, 2^31)`. -/
def toInt32 (q : ℚ) : ℤ := Int.bmod (jsTrunc q) (2 ^ 32)

/-- The numeric value of `+v.toFixed(4)` for a finite `v`: per the host
`toFixed` algorithm the sign is split off and the magnitude is rounded to the
nearest multiple of `10⁻⁴`, ties going to the larger candidate (hence away
from zero once the sign is restored). -/
def toFixed4 (v : ℚ) : ℚ :=
  if v < 0 then -((⌊-v * 10000 + 1 / 2⌋ : ℚ) / 10000)
  else (⌊v * 10000 + 1 / 2⌋ : ℚ) / 10000

/-- JavaScript remainder `a % b` for finite operands (`b ≠ 0`): it has the
sign of the dividend, `a - b * trunc(a / b)`.  (For `b = 0` the host yields
NaN; that case is never reached here, the engine only takes `a % 10^p`.) -/
def jsRem (a b : ℚ) : ℚ := if b = 0 then 0 else a - b * (jsTrunc (a / b) : ℚ)

/-! ### Digit strings

Helpers used both to model `Number(string)` (the parser side) and
`Number.prototype.toFixed` (the rendering side).  Rendering is implemented
with an explicit fuel argument so that every definition is structurally
recursive and kernel-executable. -/

/-- Numeric value of a decimal digit character. -/
def digitVal (c : Char) : ℕ := c.toNat - 48

/-- Value of a big-endian list of decimal digit characters, the way the host
number parser accumulates it. -/
def digitsValL (cs : List Char) : ℕ := cs.foldl (fun a c => 10 * a + digitVal c) 0

/-- Little-endian decimal digits of `n`, computed with `fuel ≥ n` steps. -/
def toDigitsRev (fuel : ℕ) (n : ℕ) : List ℕ :=
  match fuel with
  | 0 => []
  | f + 1 => if n = 0 then [] else n % 10 :: toDigitsRev f (n / 10)

/-- The character of a decimal digit. -/
def digitChr (d : ℕ) : Char := Char.ofNat (48 + d)

/-- Big-endian decimal digit characters of a natural number (`"0"` for zero). -/
def natToChars (n : ℕ) : List Char :=
  if n = 0 then ['0'] else ((toDigitsRev n n).map digitChr).reverse

/-- Left-pad a digit list with `'0'` up to width `f`. -/
def padZeros (f : ℕ) (cs : List Char) : List Char :=
  List.replicate (f - cs.length) '0' ++ cs

/-- The character list of `q.toFixed(f)` for a finite `q` (of magnitude below
`10^21`, which covers every value the engine renders): sign split off,
magnitude rounded to the nearest multiple of `10^-f` (ties to the larger
candidate), then written as integer part, decimal point and exactly `f`
fractional digits (no point when `f = 0`). -/
def toFixedChars (q : ℚ) (f : ℕ) : List Char :=
  let n : ℕ := (⌊|q| * 10 ^ f + 1 / 2⌋).toNat
  let body :=
    if f = 0 then natToChars n
    else natToChars (n / 10 ^ f) ++ '.' :: padZeros f (natToChars (n % 10 ^ f))
  if q < 0 then '-' :: body else body

/-- `q.toFixed(f)` as a string. -/
def jsToFixed (q : ℚ) (f : ℕ) : String := ⟨toFixedChars q f⟩

/-- Split a character list at every `'.'` (the behaviour of `split('.')`). -/
def splitDots (cs : List Char) : List (List Char) :=
  match cs with
  | [] => [[]]
  | c :: rest =>
    if c = '.' then [] :: splitDots rest
    else
      match splitDots rest with
      | [] => [[c]]
      | g :: gs => (c :: g) :: gs

/-- The unsigned part of the host number grammar over the post-cleaning
alphabet: at most one dot, at least one digit, nothing else. -/
def jsNumBody (body : List Char) : Option ℚ :=
  match splitDots body with
  | [ip] =>
    if ip ≠ [] ∧ ip.all (·.isDigit) then some ((digitsValL ip : ℚ)) else none
  | [ip, fp] =>
    if (ip ≠ [] ∨ fp ≠ []) ∧ ip.all (·.isDigit) ∧ fp.all (·.isDigit) then
      some ((digitsValL ip : ℚ) + (digitsValL fp : ℚ) / 10 ^ fp.length)
    else none
  | _ => none

/-- `Number(string)` restricted to the alphabet that survives the parser's
character stripping (`-`, digits, `.`): the empty string is `0`; otherwise an
optional leading minus negates the body, and any other shape is NaN
(`none`). -/
def jsNumL (cs : List Char) : Option ℚ :=
  match cs with
  | [] => some 0
  | c :: rest =>
    if c = '-' then Option.map (fun q : ℚ => -q) (jsNumBody rest)
    else jsNumBody (c :: rest)

/-- `.replace(/\((.*)\)/, '-$1')`: if the string has a `'('` with some `')'`
after it, the (greedy) match runs from the first `'('` to the last `')'`, and
is replaced by `'-'` followed by the captured interior. -/
def parenReplace (cs : List Char) : List Char :=
  let pre := cs.takeWhile (· ≠ '(')
  if pre.length = cs.length then cs
  else
    let rest := cs.drop (pre.length + 1)
    let sufRev := rest.reverse.takeWhile (· ≠ ')')
    if sufRev.length = rest.length then cs
    else
      pre ++ '-' :: (rest.take (rest.length - sufRev.length - 1) ++
        rest.drop (rest.length - sufRev.length))

/-! ### Settings -/

/-- Which digit-grouping regex `settings.groups` holds:
`groupRegex = /(\d)(?=(\d{3})+\b)/g` or `vedicRegex = /(\d)(?=(\d\d)+\d\b)/g`. -/
inductive GroupRule where
  | standard
  | vedic
deriving DecidableEq

/-- The resolved settings object (`IDefaults & IOpts` after the constructor has
merged defaults, applied `increment` defaulting and selected `groups`).  The
source stores `decimal` as a string; it is modelled as its single character,
which is faithful for the one-character decimal marks the class is used with
(the default is `"."`). -/
structure Settings where
  symbol : String
  separator : String
  decimal : Char
  formatWithSymbol : Bool
  errorOnInvalid : Bool
  precision : ℕ
  pattern : String
  negativePattern : String
  increment : ℚ
  useVedic : Bool
  groups : GroupRule
deriving DecidableEq

/-- A partial options object (`opts` as passed to the constructor): absent
fields fall back to `defaults` under `Object.assign`.  `opts.groups` is not
modelled because the constructor unconditionally overwrites `settings.groups`
from `settings.useVedic`. -/
structure Opts where
  symbol : Option String := none
  separator : Option String := none
  decimal : Option Char := none
  formatWithSymbol : Option Bool := none
  errorOnInvalid : Option Bool := none
  precision : Option ℕ := none
  pattern : Option String := none
  negativePattern : Option String := none
  increment : Option ℚ := none
  useVedic : Option Bool := none

/-- `Object.assign({}, defaults, opts)` followed by the constructor's fixups:
`settings.increment = settings.increment || 1 / precision` (so an absent or
zero increment becomes the smallest unit) and
`settings.groups = settings.useVedic ? vedicRegex : groupRegex`.
The literal fall-backs are the fields of `defaults` in the source. -/
def resolveSettings (o : Opts) : Settings :=
  let p := o.precision.getD 2
  { symbol := o.symbol.getD "$"
    separator := o.separator.getD ","
    decimal := o.decimal.getD '.'
    formatWithSymbol := o.formatWithSymbol.getD false
    errorOnInvalid := o.errorOnInvalid.getD false
    precision := p
    pattern := o.pattern.getD "!#"
    negativePattern := o.negativePattern.getD "-!#"
    increment :=
      match o.increment with
      | some i => if i = 0 then 1 / pow10 p else i
      | none => 1 / pow10 p
    useVedic := o.useVedic.getD false
    groups := if o.useVedic.getD false then GroupRule.vedic else GroupRule.standard }

/-- A fully resolved settings object passed back in as the `opts` argument,
as the arithmetic methods do with `new Currency(…, _settings)`. -/
def toOpts (s : Settings) : Opts :=
  { symbol := some s.symbol
    separator := some s.separator
    decimal := some s.decimal
    formatWithSymbol := some s.formatWithSymbol
    errorOnInvalid := some s.errorOnInvalid
    precision := some s.precision
    pattern := some s.pattern
    negativePattern := some s.negativePattern
    increment := some s.increment
    useVedic := some s.useVedic }

/-! ### The Currency value and the parser -/

/-- A constructed `Currency` instance: `intValue` is the scaled amount the
parser returned, `value` the cached display value `intValue / 10^precision`,
and `_settings` / `_precision` the resolved configuration. -/
structure Currency where
  intValue : ℚ
  value : ℚ
  psettings : Settings
  pprecision : ℚ

/-- A runtime value of type `number | string | Currency`, plus `undef` for the
values outside that annotation (e.g. `undefined`) that JavaScript can still
pass in and that the parser's final `else` branch handles. -/
inductive JSVal where
  | num (q : ℚ)
  | str (t : String)
  | cur (c : Currency)
  | undef

/-- Outcome of `parse`: a finite number, NaN, or the `Invalid Input` throw. -/
inductive ParseOut where
  | ok (v : ℚ)
  | nan
  | err
deriving DecidableEq

/-- The tail of `parse`: `v = +v.toFixed(4); return useRounding ? round(v) : v`. -/
def parseFinish (v : ℚ) (useRounding : Bool) : ℚ :=
  let v4 := toFixed4 v
  if useRounding then (jsRound v4 : ℚ) else v4

/-- The number branch of `parse`: `v = value * precision` then the tail. -/
def parseNum (q : ℚ) (s : Settings) (useRounding : Bool) : ℚ :=
  parseFinish (q * pow10 s.precision) useRounding

/-- The string cleanup in `parse`: the parenthesis rewrite, then
`replace(regex, '')` with `regex = [^-\d<decimal>]` (keep only `-`, digits and
the decimal mark), then `replace(decimalString, '.')` (canonicalise the
decimal mark). -/
def cleanData (t : String) (dec : Char) : List Char :=
  ((parenReplace t.data).filter (fun c => c == '-' || c.isDigit || c == dec)).map
    (fun c => if c = dec then '.' else c)

/-- The string branch of `parse`: clean, `Number(...) * precision`, then
`v = v || 0` (which turns the NaN of an unparseable string into `0`), then the
tail. -/
def parseStr (t : String) (s : Settings) (useRounding : Bool) : ℚ :=
  let v : ℚ :=
    match jsNumL (cleanData t s.decimal) with
    | some q => q * pow10 s.precision
    | none => 0
  parseFinish v useRounding

/-- `function parse(value, opts, useRounding = true)`.  For a `Currency`
argument the source evaluates `this.value * precision`, but `parse` is a plain
function, so `this` is the global object and `this.value` is `undefined`: the
branch produces NaN (upstream currency.js reads `value.value` here instead).
For a value outside `number | string | Currency` it throws `Invalid Input`
when `errorOnInvalid` is set and otherwise returns `0` through the tail. -/
def parseRun (value : JSVal) (s : Settings) (useRounding : Bool) : ParseOut :=
  match value with
  | .num q => .ok (parseNum q s useRounding)
  | .str t => .ok (parseStr t s useRounding)
  | .cur _ => .nan
  | .undef => if s.errorOnInvalid then .err else .ok (parseFinish 0 useRounding)

/-- The value part of the constructor for an input already known to parse to
the finite number `parseNum q s true`. -/
def currencyOfNum (q : ℚ) (s : Settings) : Currency :=
  { intValue := parseNum q s true
    value := parseNum q s true / pow10 s.precision
    psettings := s
    pprecision := pow10 s.precision }

/-- The `Currency` constructor: resolve settings, pull `value.value` out of a
`Currency` argument, run the parser, and store
`intValue = v`, `value = v / precision`, `_settings`, `_precision`.
The `.nan` branch is unreachable (`inner` is never a `Currency`). -/
def currencyCtor (value : JSVal) (opts : Opts) : Except Unit Currency :=
  let s := resolveSettings opts
  let inner : JSVal :=
    match value with
    | .cur c => .num c.value
    | v => v
  match parseRun inner s true with
  | .ok v =>
    .ok { intValue := v
          value := v / pow10 s.precision
          psettings := s
          pprecision := pow10 s.precision }
  | .nan => .error ()
  | .err => .error ()

/-- `new Currency(q, _settings)` as the methods invoke it: the resolved
settings object goes through the constructor's settings resolution again. -/
def newCurrencyNum (q : ℚ) (s : Settings) : Currency :=
  currencyOfNum q (resolveSettings (toOpts s))

/-- Outcome of an arithmetic method: a currency value, a currency object whose
numeric fields are not finite (NaN from a `Currency` operand, an infinity from
a zero divisor), or the propagated `Invalid Input` throw. -/
inductive COut where
  | ok (c : Currency)
  | nonFinite
  | invalid

/-- `add`: `new Currency((intValue += parse(number, _settings)) / _precision, _settings)`. -/
def Currency.add (c : Currency) (x : JSVal) : COut :=
  match parseRun x c.psettings true with
  | .err => .invalid
  | .nan => .nonFinite
  | .ok p => .ok (newCurrencyNum ((c.intValue + p) / c.pprecision) c.psettings)

/-- `subtract`: as `add` with integer subtraction. -/
def Currency.subtract (c : Currency) (x : JSVal) : COut :=
  match parseRun x c.psettings true with
  | .err => .invalid
  | .nan => .nonFinite
  | .ok p => .ok (newCurrencyNum ((c.intValue - p) / c.pprecision) c.psettings)

/-- `multiply`: the operand is used raw (its TypeScript type is `number`),
`new Currency((intValue *= number) / pow(_settings.precision), _settings)`. -/
def Currency.multiply (c : Currency) (x : ℚ) : Currency :=
  newCurrencyNum ((c.intValue * x) / pow10 c.psettings.precision) c.psettings

/-- `divide`: the divisor goes through `parse` with `useRounding = false`,
then `new Currency(intValue /= parsedDivisor, _settings)`.  A zero parsed
divisor makes the host division non-finite. -/
def Currency.divide (c : Currency) (x : JSVal) : COut :=
  match parseRun x c.psettings false with
  | .err => .invalid
  | .nan => .nonFinite
  | .ok p => if p = 0 then .nonFinite else .ok (newCurrencyNum (c.intValue / p) c.psettings)

/-- `add` at a number operand (the shape `distribute` uses, `item.add(1/_precision)`). -/
def Currency.addNum (c : Currency) (q : ℚ) : Currency :=
  newCurrencyNum ((c.intValue + parseNum q c.psettings true) / c.pprecision) c.psettings

/-- `subtract` at a number operand. -/
def Currency.subNum (c : Currency) (q : ℚ) : Currency :=
  newCurrencyNum ((c.intValue - parseNum q c.psettings true) / c.pprecision) c.psettings

/-- The loop of `distribute`: runs `count` times; each iteration builds
`new Currency(split / _precision, _settings)`, and while `pennies-- > 0` still
held before the decrement, adds (non-negative total) or subtracts (negative
total) one smallest unit. -/
def distributeLoop (s : Settings) (P : ℚ) (nonneg : Bool) (split : ℚ) :
    ℕ → ℚ → List Currency
  | 0, _ => []
  | n + 1, pennies =>
    let item := newCurrencyNum (split / P) s
    let item2 :=
      if 0 < pennies then (if nonneg then item.addNum (1 / P) else item.subNum (1 / P))
      else item
    item2 :: distributeLoop s P nonneg split n (pennies - 1)

/-- `distribute(count)`:
`split = Math[intValue >= 0 ? 'floor' : 'ceil'](intValue / count)`,
`pennies = Math.abs(intValue - split * count)`, then the loop.  The source
loop `for (; count !== 0; count--)` terminates exactly for the non-negative
counts modelled here (`count = 0` gives the empty list). -/
def Currency.distribute (c : Currency) (count : ℕ) : List Currency :=
  let split : ℚ :=
    if 0 ≤ c.intValue then (jsFloor (c.intValue / count) : ℚ)
    else (jsCeil (c.intValue / count) : ℚ)
  let pennies : ℚ := |c.intValue - split * count|
  distributeLoop c.psettings c.pprecision (decide (0 ≤ c.intValue)) split count pennies

/-- `dollars(): return ~~this.value`. -/
def Currency.dollars (c : Currency) : ℤ := toInt32 c.value

/-- `cents(): return ~~(intValue % _precision)`. -/
def Currency.cents (c : Currency) : ℤ := toInt32 (jsRem c.intValue c.pprecision)

/-- `rounding(value, increment) = round(value / increment) * increment`. -/
def roundingInc (value increment : ℚ) : ℚ := (jsRound (value / increment) : ℚ) * increment

/-- `toString(): rounding(intValue / _precision, _settings.increment).toFixed(_settings.precision)`. -/
def Currency.toStr (c : Currency) : String :=
  jsToFixed (roundingInc (c.intValue / c.pprecision) c.psettings.increment) c.psettings.precision

/-- Whether the grouping regex fires after a digit that is followed by `rem`
more digits: the standard rule `(\d)(?=(\d{3})+\b)` wants a positive multiple
of three, the vedic rule `(\d)(?=(\d\d)+\d\b)` an odd count of at least
three. -/
def groupBreak (r : GroupRule) (rem : ℕ) : Bool :=
  match r with
  | .standard => decide (rem % 3 = 0) && decide (0 < rem)
  | .vedic => decide (rem % 2 = 1) && decide (3 ≤ rem)

/-- `dollars.replace(groups, '$1' + separator)` on an all-digit integer part:
emit each digit, inserting the separator where the grouping regex fires. -/
def groupIns (r : GroupRule) (sep : String) : List Char → String
  | [] => ""
  | c :: rest =>
    String.singleton c ++ (if groupBreak r rest.length then sep else "") ++
      groupIns r sep rest

/-- `String.prototype.replace` with a plain-string pattern replaces only the
first occurrence. -/
def replaceFirstAux (pat rep : List Char) : List Char → List Char
  | [] => []
  | c :: rest =>
    if pat.isPrefixOf (c :: rest) then rep ++ (c :: rest).drop pat.length
    else c :: replaceFirstAux pat rep rest

/-- First-occurrence string replacement. -/
def replaceFirst (s pat rep : String) : String := ⟨replaceFirstAux pat.data rep.data s.data⟩

/-- `format(useSymbol?)`: stringify via `toString` (that is what `this + ''`
evaluates to), drop a leading minus, split at the decimal point into `dollars`
and `cents` (`cents` may be absent), pick `pattern` or `negativePattern` by the
sign of `this.value`, then substitute `!` (symbol) and `#` (grouped digits plus
decimal part when the `cents` field is truthy). -/
def Currency.formatOp (c : Currency) (useSymbol : Option Bool) : String :=
  let s := c.psettings
  let body : List Char :=
    match c.toStr.data with
    | '-' :: rest => rest
    | cs => cs
  let parts := splitDots body
  let dollars : List Char := parts.headD []
  let cents : List Char := (parts.drop 1).headD []
  let useSym := useSymbol.getD s.formatWithSymbol
  let num :=
    groupIns s.groups s.separator dollars ++
      (if cents.isEmpty then "" else String.singleton s.decimal ++ (⟨cents⟩ : String))
  replaceFirst
    (replaceFirst (if 0 ≤ c.value then s.pattern else s.negativePattern) "!"
      (if useSym then s.symbol else ""))
    "#" num

/-! ### Basic numeric lemmas -/

theorem pow10_pos (p : ℕ) : 0 < pow10 p := by
  unfold pow10; positivity

theorem pow10_ne_zero (p : ℕ) : pow10 p ≠ 0 := ne_of_gt (pow10_pos p)

theorem floor_intCast_add_half (m : ℤ) : ⌊(m : ℚ) + 1 / 2⌋ = m := by
  rw [Int.floor_eq_iff]
  constructor
  · linarith
  · linarith

theorem jsRound_intCast (n : ℤ) : jsRound (n : ℚ) = n := floor_intCast_add_half n

theorem toFixed4_intCast (n : ℤ) : toFixed4 (n : ℚ) = n := by
  unfold toFixed4
  by_cases h : (n : ℚ) < 0
  · rw [if_pos h]
    have h1 : (-(n : ℚ)) * 10000 = ((-n * 10000 : ℤ) : ℚ) := by push_cast; ring
    rw [h1, floor_intCast_add_half]
    push_cast
    field_simp
  · rw [if_neg h]
    have h1 : ((n : ℚ)) * 10000 = ((n * 10000 : ℤ) : ℚ) := by push_cast; ring
    rw [h1, floor_intCast_add_half]
    field_simp

theorem parseFinish_intCast (n : ℤ) (u : Bool) : parseFinish (n : ℚ) u = n := by
  unfold parseFinish
  rw [toFixed4_intCast]
  cases u <;> simp [jsRound_intCast]

/-- Parsing a number of the form `n / 10^precision` recovers the integer `n`
exactly. -/
theorem parseNum_scaled (s : Settings) (n : ℤ) :
    parseNum ((n : ℚ) / pow10 s.precision) s true = n := by
  unfold parseNum
  rw [div_mul_cancel₀ _ (pow10_ne_zero _), parseFinish_intCast]

/-- Parsing an integer number scales it by `10^precision` exactly. -/
theorem parseNum_intCast (s : Settings) (n : ℤ) :
    parseNum (n : ℚ) s true = ((n * (10 : ℤ) ^ s.precision : ℤ) : ℚ) := by
  unfold parseNum
  have h1 : (n : ℚ) * pow10 s.precision = ((n * (10 : ℤ) ^ s.precision : ℤ) : ℚ) := by
    unfold pow10; push_cast; ring
  rw [h1, parseFinish_intCast]

/-! ### Resolved settings -/

/-- The state of a settings object after the constructor has run: `groups`
agrees with `useVedic` and `increment` is non-zero (`x || 1/precision` never
leaves zero). -/
def SettingsResolved (s : Settings) : Prop :=
  s.groups = (if s.useVedic then GroupRule.vedic else GroupRule.standard) ∧ s.increment ≠ 0

theorem resolveSettings_resolved (o : Opts) : SettingsResolved (resolveSettings o) := by
  refine ⟨rfl, ?_⟩
  unfold resolveSettings
  cases h : o.increment with
  | none => exact one_div_ne_zero (pow10_ne_zero _)
  | some i =>
    dsimp only
    by_cases hi : i = 0
    · simp [hi, one_div_ne_zero, pow10_ne_zero]
    · simp [hi]

/-- Passing a resolved settings object back through the constructor's
resolution (as `new Currency(…, _settings)` does) is the identity. -/
theorem resolve_toOpts {s : Settings} (h : SettingsResolved s) : resolveSettings (toOpts s) = s := by
  obtain ⟨hg, hi⟩ := h
  cases s with
  | mk symbol separator decimal fws eoi p pat npat inc uv gr =>
    simp only [resolveSettings, toOpts, Option.getD_some]
    simp only at hg hi
    simp [hg, hi]

/-! ### Well-formed currency values -/

theorem currencyOfNum_intValue (q : ℚ) (s : Settings) :
    (currencyOfNum q s).intValue = parseNum q s true := rfl

theorem currencyOfNum_psettings (q : ℚ) (s : Settings) :
    (currencyOfNum q s).psettings = s := rfl

theorem currencyOfNum_pprecision (q : ℚ) (s : Settings) :
    (currencyOfNum q s).pprecision = pow10 s.precision := rfl

theorem newCurrencyNum_resolved {s : Settings} (h : SettingsResolved s) (q : ℚ) :
    newCurrencyNum q s = currencyOfNum q s := by
  unfold newCurrencyNum
  rw [resolve_toOpts h]

/-- Invariants every constructed currency value satisfies. -/
def CurrencyWF (c : Currency) : Prop :=
  SettingsResolved c.psettings ∧
  c.pprecision = pow10 c.psettings.precision ∧
  (∃ n : ℤ, c.intValue = (n : ℚ)) ∧
  c.value = c.intValue / c.pprecision

theorem currencyOfNum_wf (q : ℚ) {s : Settings} (h : SettingsResolved s) :
    CurrencyWF (currencyOfNum q s) :=
  ⟨h, rfl, ⟨jsRound (toFixed4 (q * pow10 s.precision)), rfl⟩, rfl⟩

theorem currencyCtor_num (q : ℚ) (o : Opts) :
    currencyCtor (.num q) o = .ok (currencyOfNum q (resolveSettings o)) := rfl

theorem currencyCtor_wf {v : JSVal} {o : Opts} {c : Currency}
    (h : currencyCtor v o = .ok c) : CurrencyWF c := by
  cases v with
  | num q =>
    rw [currencyCtor_num] at h
    cases h
    exact currencyOfNum_wf q (resolveSettings_resolved o)
  | str t =>
    simp only [currencyCtor, parseRun, Except.ok.injEq] at h
    subst h
    exact ⟨resolveSettings_resolved o, rfl,
      ⟨jsRound (toFixed4 _), rfl⟩, rfl⟩
  | cur c0 =>
    simp only [currencyCtor, parseRun, Except.ok.injEq] at h
    subst h
    exact ⟨resolveSettings_resolved o, rfl,
      ⟨jsRound (toFixed4 _), rfl⟩, rfl⟩
  | undef =>
    simp only [currencyCtor, parseRun] at h
    cases hb : (resolveSettings o).errorOnInvalid
    · rw [hb] at h
      simp only [Bool.false_eq_true, if_false, Except.ok.injEq] at h
      subst h
      exact ⟨resolveSettings_resolved o, rfl,
        ⟨jsRound (toFixed4 _), rfl⟩, rfl⟩
    · rw [hb] at h
      simp at h

/-! ### Distribution lemmas -/

/-- The share each entry of `distribute` starts from
(`Math[intValue >= 0 ? 'floor' : 'ceil'](intValue / count)`). -/
def distSplit (c : Currency) (count : ℕ) : ℚ :=
  if 0 ≤ c.intValue then (jsFloor (c.intValue / count) : ℚ)
  else (jsCeil (c.intValue / count) : ℚ)

/-- `pennies = Math.abs(intValue - split * count)`. -/
def distRemainder (c : Currency) (count : ℕ) : ℚ :=
  |c.intValue - distSplit c count * count|

theorem distribute_eq_loop (c : Currency) (count : ℕ) :
    c.distribute count =
      distributeLoop c.psettings c.pprecision (decide (0 ≤ c.intValue))
        (distSplit c count) count (distRemainder c count) := rfl

theorem distributeLoop_length (s : Settings) (P : ℚ) (b : Bool) (z : ℚ) :
    ∀ (m : ℕ) (p : ℚ), (distributeLoop s P b z m p).length = m := by
  intro m
  induction m with
  | zero => intro p; rfl
  | succ n ih => intro p; simp [distributeLoop, ih]

/-- `item.add(1 / _precision)` bumps an integer scaled amount by one unit. -/
theorem addNum_unit {s : Settings} (h : SettingsResolved s) (z : ℤ) :
    ((currencyOfNum ((z : ℚ) / pow10 s.precision) s).addNum (1 / pow10 s.precision)).intValue
      = ((z : ℚ) + 1) := by
  unfold Currency.addNum
  rw [currencyOfNum_pprecision, currencyOfNum_psettings, currencyOfNum_intValue,
    newCurrencyNum_resolved h, currencyOfNum_intValue, parseNum_scaled]
  have h1 : (1 : ℚ) / pow10 s.precision = ((1 : ℤ) : ℚ) / pow10 s.precision := by norm_num
  rw [h1, parseNum_scaled]
  have h2 : ((z : ℚ) + ((1 : ℤ) : ℚ)) / pow10 s.precision
      = (((z + 1 : ℤ)) : ℚ) / pow10 s.precision := by push_cast; ring
  rw [h2, parseNum_scaled]
  push_cast
  ring

/-- `item.subtract(1 / _precision)` lowers an integer scaled amount by one unit. -/
theorem subNum_unit {s : Settings} (h : SettingsResolved s) (z : ℤ) :
    ((currencyOfNum ((z : ℚ) / pow10 s.precision) s).subNum (1 / pow10 s.precision)).intValue
      = ((z : ℚ) - 1) := by
  unfold Currency.subNum
  rw [currencyOfNum_pprecision, currencyOfNum_psettings, currencyOfNum_intValue,
    newCurrencyNum_resolved h, currencyOfNum_intValue, parseNum_scaled]
  have h1 : (1 : ℚ) / pow10 s.precision = ((1 : ℤ) : ℚ) / pow10 s.precision := by norm_num
  rw [h1, parseNum_scaled]
  have h2 : ((z : ℚ) - ((1 : ℤ) : ℚ)) / pow10 s.precision
      = (((z - 1 : ℤ)) : ℚ) / pow10 s.precision := by push_cast; ring
  rw [h2, parseNum_scaled]
  push_cast
  ring

/-- Scaled amount of the `k`-th entry the loop emits: the base share plus one
signed unit while the penny counter is still positive at that entry. -/
theorem distributeLoop_get? {s : Settings} (h : SettingsResolved s) (b : Bool) (z : ℤ) :
    ∀ (m : ℕ) (p : ℚ) (k : ℕ), k < m →
      ((distributeLoop s (pow10 s.precision) b (z : ℚ) m p).get? k).map Currency.intValue
        = some ((z : ℚ) + if (k : ℚ) < p then (if b then 1 else -1) else 0) := by
  intro m
  induction m with
  | zero => intro p k hk; omega
  | succ n ih =>
    intro p k hk
    cases k with
    | zero =>
      simp only [distributeLoop, List.get?_cons_zero, Option.map_some', Option.some.injEq]
      rw [newCurrencyNum_resolved h]
      by_cases hp : (0 : ℚ) < p
      · have hcast : (((0 : ℕ) : ℚ)) < p := by simpa using hp
        rw [if_pos hp, if_pos hcast]
        cases b with
        | true =>
          rw [if_pos rfl, if_pos rfl, addNum_unit h]
        | false =>
          rw [if_neg (by simp), if_neg (by simp), subNum_unit h]
          ring
      · have hcast : ¬ ((((0 : ℕ) : ℚ)) < p) := by simpa using hp
        rw [if_neg hp, if_neg hcast, currencyOfNum_intValue, parseNum_scaled]
        ring
    | succ k0 =>
      simp only [distributeLoop, List.get?_cons_succ]
      rw [ih (p - 1) k0 (by omega)]
      have hiff : ((k0 : ℚ) < p - 1) ↔ (((k0 + 1 : ℕ) : ℚ) < p) := by
        push_cast
        constructor <;> intro <;> linarith
      by_cases hk0 : (k0 : ℚ) < p - 1
      · rw [if_pos hk0, if_pos (hiff.mp hk0)]
      · rw [if_neg hk0, if_neg (fun hx => hk0 (hiff.mpr hx))]

/-- Once the penny counter is exhausted every remaining entry is the bare share. -/
theorem distributeLoop_sum_nonpos {s : Settings} (h : SettingsResolved s) (b : Bool) (z : ℤ) :
    ∀ (m : ℕ) (p : ℚ), p ≤ 0 →
      ((distributeLoop s (pow10 s.precision) b (z : ℚ) m p).map Currency.intValue).sum
        = (m : ℚ) * z := by
  intro m
  induction m with
  | zero => intro p hp; simp [distributeLoop]
  | succ n ih =>
    intro p hp
    simp only [distributeLoop, List.map_cons, List.sum_cons]
    rw [if_neg (by linarith : ¬ (0 : ℚ) < p)]
    rw [newCurrencyNum_resolved h, currencyOfNum_intValue, parseNum_scaled]
    rw [ih (p - 1) (by linarith)]
    push_cast
    ring

/-- Total of the scaled amounts the loop emits, for a penny counter `p ≤ m`. -/
theorem distributeLoop_sum {s : Settings} (h : SettingsResolved s) (b : Bool) (z : ℤ) :
    ∀ (m : ℕ) (p : ℕ), p ≤ m →
      ((distributeLoop s (pow10 s.precision) b (z : ℚ) m (p : ℚ)).map Currency.intValue).sum
        = (m : ℚ) * z + (if b then (p : ℚ) else -(p : ℚ)) := by
  intro m
  induction m with
  | zero =>
    intro p hp
    interval_cases p
    cases b <;> simp [distributeLoop]
  | succ n ih =>
    intro p hp
    simp only [distributeLoop, List.map_cons, List.sum_cons]
    rw [newCurrencyNum_resolved h]
    cases p with
    | zero =>
      rw [if_neg (by norm_num : ¬ (0 : ℚ) < ((0 : ℕ) : ℚ))]
      rw [currencyOfNum_intValue, parseNum_scaled]
      have h0 : (((0 : ℕ) : ℚ)) - 1 ≤ 0 := by norm_num
      rw [distributeLoop_sum_nonpos h b z n _ h0]
      cases b with
      | true => rw [if_pos rfl]; push_cast; ring
      | false => rw [if_neg (by simp)]; push_cast; ring
    | succ p0 =>
      rw [if_pos (by push_cast; positivity)]
      have hstep : (((p0 + 1 : ℕ) : ℚ)) - 1 = ((p0 : ℕ) : ℚ) := by push_cast; ring
      cases b with
      | true =>
        rw [if_pos rfl, if_pos rfl, addNum_unit h, hstep, ih p0 (by omega)]
        rw [if_pos rfl]
        push_cast
        ring
      | false =>
        rw [if_neg (by simp), if_neg (by simp), subNum_unit h, hstep, ih p0 (by omega)]
        rw [if_neg (by simp)]
        push_cast
        ring

/-- C1: for every (constructed) currency value and every count `n > 0`,
`distribute n` returns an ordered sequence of exactly `n` currency values
whose scaled amounts sum exactly to the original scaled amount, and each
indivisible leftover unit is added to (for negative amounts: subtracted from)
the earliest entries in emission order: entry `k` holds the base share plus
one signed unit exactly when `k` is below the leftover-unit count. -/
theorem C1_distribute_conserves (c : Currency) (h : CurrencyWF c) (n : ℕ) (hn : 0 < n) :
    (c.distribute n).length = n ∧
    ((c.distribute n).map Currency.intValue).sum = c.intValue ∧
    (∀ k : ℕ, k < n →
      ((c.distribute n).get? k).map Currency.intValue =
        some (distSplit c n +
          if (k : ℚ) < distRemainder c n then (if 0 ≤ c.intValue then 1 else -1) else 0)) := by
  obtain ⟨hs, hP, ⟨N, hN⟩, hv⟩ := h
  have hnZ : (0 : ℤ) < (n : ℤ) := by exact_mod_cast hn
  by_cases hpos : 0 ≤ c.intValue
  · have hb : decide (0 ≤ c.intValue) = true := decide_eq_true hpos
    have hfl : distSplit c n = ((N / (n : ℤ) : ℤ) : ℚ) := by
      unfold distSplit jsFloor
      rw [if_pos hpos, hN, Rat.floor_intCast_div_natCast]
    have hremInt : c.intValue - distSplit c n * n = ((N % (n : ℤ) : ℤ) : ℚ) := by
      rw [hN, hfl, Int.emod_def]
      push_cast
      ring
    have hrem : distRemainder c n = (((N % (n : ℤ)).toNat : ℕ) : ℚ) := by
      unfold distRemainder
      rw [hremInt, abs_of_nonneg (by exact_mod_cast Int.emod_nonneg N (by omega))]
      have h2 : (((N % (n : ℤ)).toNat : ℤ)) = N % (n : ℤ) :=
        Int.toNat_of_nonneg (Int.emod_nonneg N (by omega))
      exact_mod_cast congrArg (fun z : ℤ => (z : ℚ)) h2.symm
    have hpn : (N % (n : ℤ)).toNat ≤ n := by
      have h1 : N % (n : ℤ) < n := Int.emod_lt_of_pos N hnZ
      omega
    refine ⟨by rw [distribute_eq_loop, distributeLoop_length], ?_, ?_⟩
    · rw [distribute_eq_loop, hP, hfl, hrem, hb,
        distributeLoop_sum hs true (N / (n : ℤ)) n ((N % (n : ℤ)).toNat) hpn,
        if_pos rfl, hN]
      have h2 : (((N % (n : ℤ)).toNat : ℤ)) = N % (n : ℤ) :=
        Int.toNat_of_nonneg (Int.emod_nonneg N (by omega))
      have h3 : (n : ℤ) * (N / (n : ℤ)) + N % (n : ℤ) = N := Int.ediv_add_emod N (n : ℤ)
      have h4 : (((N % (n : ℤ)).toNat : ℕ) : ℚ) = ((N % (n : ℤ) : ℤ) : ℚ) := by
        exact_mod_cast congrArg (fun z : ℤ => (z : ℚ)) h2
      rw [h4]
      exact_mod_cast h3
    · intro k hk
      rw [distribute_eq_loop, hP, hfl, hrem, hb,
        distributeLoop_get? hs true (N / (n : ℤ)) n _ k hk, if_pos hpos]
      norm_num
  · have hb : decide (0 ≤ c.intValue) = false := decide_eq_false hpos
    have hNneg : (N : ℚ) < 0 := by rw [hN] at hpos; exact lt_of_not_ge hpos
    have hfl : distSplit c n = ((-((-N) / (n : ℤ)) : ℤ) : ℚ) := by
      unfold distSplit jsCeil
      rw [if_neg hpos, hN]
      have h1 : -((N : ℚ) / (n : ℕ)) = (((-N : ℤ)) : ℚ) / ((n : ℕ) : ℚ) := by
        push_cast
        ring
      rw [h1, Rat.floor_intCast_div_natCast]
    have hremInt : c.intValue - distSplit c n * n = -(((-N) % (n : ℤ) : ℤ) : ℚ) := by
      rw [hN, hfl, Int.emod_def]
      push_cast
      ring
    have hrem : distRemainder c n = ((((-N) % (n : ℤ)).toNat : ℕ) : ℚ) := by
      unfold distRemainder
      rw [hremInt, abs_neg, abs_of_nonneg (by exact_mod_cast Int.emod_nonneg (-N) (by omega))]
      have h2 : ((((-N) % (n : ℤ)).toNat : ℤ)) = (-N) % (n : ℤ) :=
        Int.toNat_of_nonneg (Int.emod_nonneg (-N) (by omega))
      exact_mod_cast congrArg (fun z : ℤ => (z : ℚ)) h2.symm
    have hpn : ((-N) % (n : ℤ)).toNat ≤ n := by
      have h1 : (-N) % (n : ℤ) < n := Int.emod_lt_of_pos (-N) hnZ
      omega
    refine ⟨by rw [distribute_eq_loop, distributeLoop_length], ?_, ?_⟩
    · rw [distribute_eq_loop, hP, hfl, hrem, hb,
        distributeLoop_sum hs false (-((-N) / (n : ℤ))) n (((-N) % (n : ℤ)).toNat) hpn,
        if_neg (by simp), hN]
      have h2 : ((((-N) % (n : ℤ)).toNat : ℤ)) = (-N) % (n : ℤ) :=
        Int.toNat_of_nonneg (Int.emod_nonneg (-N) (by omega))
      have h3 : (n : ℤ) * ((-N) / (n : ℤ)) + (-N) % (n : ℤ) = -N := Int.ediv_add_emod (-N) (n : ℤ)
      have h4 : ((((-N) % (n : ℤ)).toNat : ℕ) : ℚ) = (((-N) % (n : ℤ) : ℤ) : ℚ) := by
        exact_mod_cast congrArg (fun z : ℤ => (z : ℚ)) h2
      rw [h4]
      push_cast
      have h5 : ((n : ℕ) : ℚ) * (((-N) / (n : ℤ) : ℤ) : ℚ) + (((-N) % (n : ℤ) : ℤ) : ℚ)
          = -(N : ℚ) := by exact_mod_cast h3
      linarith [h5]
    · intro k hk
      rw [distribute_eq_loop, hP, hfl, hrem, hb,
        distributeLoop_get? hs false (-((-N) / (n : ℤ))) n _ k hk, if_neg hpos]
      norm_num

/-- Witness for C1 at the concrete input `Currency(1.27).distribute(3)`. -/
theorem C1_distribute_conserves_witness :
    (0 : ℕ) < 3 ∧
      (((currencyOfNum (127 / 100) (resolveSettings {})).distribute 3).map
          Currency.intValue).sum = (currencyOfNum (127 / 100) (resolveSettings {})).intValue :=
  ⟨Nat.zero_lt_succ 2,
    (C1_distribute_conserves (currencyOfNum (127 / 100) (resolveSettings {}))
      (currencyOfNum_wf (127 / 100) (resolveSettings_resolved {})) 3 (Nat.zero_lt_succ 2)).2.1⟩

/-! ### The final step of parse (C4) and parsing invalid strings (C2, C3) -/

theorem toFixed4_zero : toFixed4 0 = 0 := by
  unfold toFixed4
  norm_num

theorem jsRound_zero : jsRound 0 = 0 := by
  unfold jsRound
  norm_num

theorem parseFinish_zero (u : Bool) : parseFinish 0 u = 0 := by
  unfold parseFinish
  rw [toFixed4_zero]
  cases u <;> simp [jsRound_zero]

/-- Cleaned strings the host cannot parse as a number come out of the string
branch as zero (`v = v || 0`). -/
theorem parseStr_unparseable {t : String} {s : Settings}
    (h : jsNumL (cleanData t s.decimal) = none) (u : Bool) : parseStr t s u = 0 := by
  unfold parseStr
  rw [h]
  exact parseFinish_zero u

/-- Modelled from the spec words for C4: "round to the nearest integer using
round-half-away-from-zero". -/
def specRoundHalfAwayFromZero (x : ℚ) : ℤ :=
  if x < 0 then -⌊-x + 1 / 2⌋ else ⌊x + 1 / 2⌋

/-- Modelled from the spec words for C4: "truncate to 4 fractional decimal
digits". -/
def specTruncate4 (v : ℚ) : ℚ := (jsTrunc (v * 10000) : ℚ) / 10000

/-- Rounding (rather than truncating) to 4 fractional decimal digits, ties
away from zero — what `+v.toFixed(4)` actually computes. -/
def round4TiesAway (v : ℚ) : ℚ := (specRoundHalfAwayFromZero (v * 10000) : ℚ) / 10000

theorem toFixed4_eq_round4TiesAway (v : ℚ) : toFixed4 v = round4TiesAway v := by
  unfold toFixed4 round4TiesAway specRoundHalfAwayFromZero
  have hiff : v * 10000 < 0 ↔ v < 0 := by
    constructor <;> intro h <;> nlinarith
  by_cases h : v < 0
  · rw [if_pos h, if_pos (hiff.mpr h)]
    push_cast
    ring_nf
  · rw [if_neg h, if_neg (fun hx => h (hiff.mp hx))]

/-- C4 counterexample: at input `-0.005` (default precision 2) the scaled
value is `-0.5`; the code returns `0` (`Math.round` ties toward `+∞`), while
the final step the claim describes (truncate to 4 digits, then round half
away from zero) would give `-1`. -/
theorem C4_counterexample :
    parseRun (.num (-(1 / 200))) (resolveSettings {}) true = .ok 0 ∧
      (specRoundHalfAwayFromZero
        (specTruncate4 (-(1 / 200) * pow10 (resolveSettings {}).precision)) : ℚ) = -1 := by
  constructor
  · show ParseOut.ok (parseNum (-(1 / 200)) (resolveSettings {}) true) = ParseOut.ok 0
    have hp : (resolveSettings {}).precision = 2 := rfl
    unfold parseNum parseFinish toFixed4 jsRound
    rw [hp]
    norm_num [pow10]
  · have hp : (resolveSettings {}).precision = 2 := rfl
    rw [hp]
    unfold specTruncate4 jsTrunc jsCeil jsFloor specRoundHalfAwayFromZero pow10
    norm_num

/-- C4 (amended): for every scaled value and every `useRounding` flag, the
final step of `parse` first ROUNDS the value to 4 fractional decimal digits
(nearest multiple of `10⁻⁴`, ties away from zero); then, when `useRounding`
is true, it applies `Math.round`, i.e. `⌊x + 1/2⌋` (nearest integer, ties
toward `+∞`), and when `useRounding` is false it returns the 4-digit-rounded
value unchanged. -/
theorem C4_parse_final_step (v : ℚ) (u : Bool) :
    parseFinish v u =
      if u then ((⌊round4TiesAway v + 1 / 2⌋ : ℤ) : ℚ) else round4TiesAway v := by
  unfold parseFinish jsRound
  rw [toFixed4_eq_round4TiesAway]

/-- C2 counterexample: `Currency("abc", {errorOnInvalid: true})` does NOT
fail: `"abc"` is a string, so it takes the string branch of the parser, which
never throws; it is cleaned to the empty string and coerced to `0`. -/
theorem C2_counterexample :
    Except.map Currency.intValue
      (currencyCtor (.str "abc") { errorOnInvalid := some true }) = Except.ok 0 := by
  show Except.ok (parseStr "abc" (resolveSettings { errorOnInvalid := some true }) true)
      = Except.ok 0
  have hclean :
      jsNumL (cleanData "abc" (resolveSettings { errorOnInvalid := some true }).decimal)
        = some 0 := by decide
  unfold parseStr
  rw [hclean]
  dsimp only
  have hz : (0 : ℚ) * pow10 (resolveSettings { errorOnInvalid := some true }).precision = 0 := by
    rw [zero_mul]
  rw [hz, parseFinish_zero]

/-- C2 (amended): constructing a currency value from the string `"abc"`
succeeds with scaled amount `0` whether or not `errorOnInvalid` is enabled
(strings never reach the invalid-input throw; only non-number, non-string,
non-currency inputs do). -/
theorem C2_abc_coerced_to_zero :
    Except.map Currency.intValue
        (currencyCtor (.str "abc") { errorOnInvalid := some true }) = Except.ok 0 ∧
      Except.map Currency.intValue (currencyCtor (.str "abc") {}) = Except.ok 0 ∧
      currencyCtor .undef { errorOnInvalid := some true } = Except.error () := by
  refine ⟨?_, ?_, ?_⟩
  · show Except.ok (parseStr "abc" (resolveSettings { errorOnInvalid := some true }) true)
        = Except.ok 0
    have hclean :
        jsNumL (cleanData "abc" (resolveSettings { errorOnInvalid := some true }).decimal)
          = some 0 := by decide
    unfold parseStr
    rw [hclean]
    dsimp only
    have hz : (0 : ℚ) * pow10 (resolveSettings { errorOnInvalid := some true }).precision
        = 0 := by rw [zero_mul]
    rw [hz, parseFinish_zero]
  · show Except.ok (parseStr "abc" (resolveSettings {}) true) = Except.ok 0
    have hclean : jsNumL (cleanData "abc" (resolveSettings {}).decimal) = some 0 := by decide
    unfold parseStr
    rw [hclean]
    dsimp only
    have hz : (0 : ℚ) * pow10 (resolveSettings {}).precision = 0 := by rw [zero_mul]
    rw [hz, parseFinish_zero]
  · rfl

/-- C3: the parser throws `Invalid Input` exactly when the input is neither a
number, nor a string, nor a currency value (the `undef` case) and
`errorOnInvalid` is enabled; an unparseable string is coerced to zero without
raising, a non-number/string/currency input without the flag yields zero, and
the arithmetic methods fail only by propagating that same parser throw. -/
theorem C3_invalid_input_only (s : Settings) (u : Bool) :
    (∀ v : JSVal, parseRun v s u = .err ↔ v = .undef ∧ s.errorOnInvalid = true) ∧
    (∀ t : String, jsNumL (cleanData t s.decimal) = none → parseRun (.str t) s u = .ok 0) ∧
    (s.errorOnInvalid = false → parseRun .undef s u = .ok 0) ∧
    (∀ (c : Currency) (x : JSVal),
      (c.add x = .invalid ↔ parseRun x c.psettings true = .err) ∧
      (c.subtract x = .invalid ↔ parseRun x c.psettings true = .err) ∧
      (c.divide x = .invalid ↔ parseRun x c.psettings false = .err)) := by
  refine ⟨?_, ?_, ?_, ?_⟩
  · intro v
    cases v with
    | num q => simp [parseRun]
    | str t => simp [parseRun]
    | cur c => simp [parseRun]
    | undef =>
      cases hb : s.errorOnInvalid with
      | false => simp [parseRun, hb]
      | true => simp [parseRun, hb]
  · intro t ht
    show ParseOut.ok (parseStr t s u) = ParseOut.ok 0
    rw [parseStr_unparseable ht]
  · intro hb
    show parseRun .undef s u = ParseOut.ok 0
    unfold parseRun
    rw [hb]
    simp [parseFinish_zero]
  · intro c x
    refine ⟨?_, ?_, ?_⟩
    · unfold Currency.add
      cases hpr : parseRun x c.psettings true <;> simp [hpr]
    · unfold Currency.subtract
      cases hpr : parseRun x c.psettings true <;> simp [hpr]
    · unfold Currency.divide
      cases hpr : parseRun x c.psettings false with
      | ok p => by_cases hp : p = 0 <;> simp [hpr, hp]
      | nan => simp [hpr]
      | err => simp [hpr]

/-- Witness for C3: `undefined` with the flag set throws; the unparseable
string `"1-2"` is coerced to zero. -/
theorem C3_invalid_input_only_witness :
    parseRun .undef (resolveSettings { errorOnInvalid := some true }) true = .err ∧
      parseRun (.str "1-2") (resolveSettings {}) true = .ok 0 :=
  ⟨((C3_invalid_input_only (resolveSettings { errorOnInvalid := some true }) true).1
      .undef).mpr ⟨rfl, rfl⟩,
    (C3_invalid_input_only (resolveSettings {}) true).2.1 "1-2" (by decide)⟩

/-- C5: evaluation at the failing input.  A `Currency` operand makes `parse`
read `this.value` — `undefined` in a plain function — so the operand scales to
NaN and `add` produces a NaN-valued object instead of the sum (the spec
describes the upstream behaviour `value.value`). -/
theorem C5_currency_operand_nan :
    parseRun (.cur (currencyOfNum 2 (resolveSettings {}))) (resolveSettings {}) true
        = ParseOut.nan ∧
      (currencyOfNum 1 (resolveSettings {})).add
        (.cur (currencyOfNum 2 (resolveSettings {}))) = COut.nonFinite :=
  ⟨rfl, rfl⟩

/-- C7: evaluation at the failing input.  With currency operands,
`(a.add(b)).add(c)` cannot yield the integer sum: already `a.add(b)` returns a
NaN-valued object because `parse` reads `this.value` for `Currency`
operands. -/
theorem C7_add_currency_operand_fails :
    (currencyOfNum (3 / 2) (resolveSettings {})).add
      (.cur (currencyOfNum (5 / 2) (resolveSettings {}))) = COut.nonFinite := rfl

/-- The currency values the public surface can actually produce: constructor
results, and results of `add`/`subtract`/`multiply`/`divide`/`distribute` on
already-reachable values. -/
inductive Reachable : Currency → Prop where
  | ctor : ∀ (v : JSVal) (o : Opts) (c : Currency), currencyCtor v o = .ok c → Reachable c
  | add : ∀ (c : Currency) (x : JSVal) (c' : Currency),
      Reachable c → c.add x = .ok c' → Reachable c'
  | subtract : ∀ (c : Currency) (x : JSVal) (c' : Currency),
      Reachable c → c.subtract x = .ok c' → Reachable c'
  | multiply : ∀ (c : Currency) (q : ℚ), Reachable c → Reachable (c.multiply q)
  | divide : ∀ (c : Currency) (x : JSVal) (c' : Currency),
      Reachable c → c.divide x = .ok c' → Reachable c'
  | distributeMem : ∀ (c : Currency) (n : ℕ) (c' : Currency),
      Reachable c → c' ∈ c.distribute n → Reachable c'

theorem newCurrencyNum_int (q : ℚ) (s : Settings) :
    ∃ n : ℤ, (newCurrencyNum q s).intValue = (n : ℚ) :=
  ⟨jsRound (toFixed4 (q * pow10 (resolveSettings (toOpts s)).precision)), rfl⟩

theorem distributeLoop_mem_int (s : Settings) (P : ℚ) (b : Bool) (z : ℚ) :
    ∀ (m : ℕ) (p : ℚ) (c' : Currency), c' ∈ distributeLoop s P b z m p →
      ∃ n : ℤ, c'.intValue = (n : ℚ) := by
  intro m
  induction m with
  | zero => intro p c' hc; simp [distributeLoop] at hc
  | succ k ih =>
    intro p c' hc
    simp only [distributeLoop, List.mem_cons] at hc
    cases hc with
    | inl h =>
      subst h
      by_cases hp : (0 : ℚ) < p
      · rw [if_pos hp]
        cases b with
        | true => rw [if_pos rfl]; exact newCurrencyNum_int _ _
        | false => rw [if_neg (by simp)]; exact newCurrencyNum_int _ _
      · rw [if_neg hp]
        exact newCurrencyNum_int _ _
    | inr h => exact ih (p - 1) c' h

/-- C8: every currency value produced by the constructor or by any operation
has an integer scaled amount, and the four arithmetic methods together with
`distribute` compute only from `intValue` (and the settings), never from the
cached display value: two currencies differing only in their `value` field
behave identically. -/
theorem C8_intValue_integer :
    (∀ c : Currency, Reachable c → ∃ n : ℤ, c.intValue = (n : ℚ)) ∧
    (∀ c₁ c₂ : Currency, c₁.intValue = c₂.intValue → c₁.psettings = c₂.psettings →
      c₁.pprecision = c₂.pprecision →
      (∀ x, c₁.add x = c₂.add x) ∧ (∀ x, c₁.subtract x = c₂.subtract x) ∧
      (∀ q, c₁.multiply q = c₂.multiply q) ∧ (∀ x, c₁.divide x = c₂.divide x) ∧
      (∀ n, c₁.distribute n = c₂.distribute n)) := by
  constructor
  · intro c h
    induction h with
    | ctor v o c hc => exact (currencyCtor_wf hc).2.2.1
    | add c x c' _ hc _ =>
      unfold Currency.add at hc
      cases hpr : parseRun x c.psettings true with
      | ok p =>
        rw [hpr] at hc
        cases hc
        exact newCurrencyNum_int _ _
      | nan => rw [hpr] at hc; cases hc
      | err => rw [hpr] at hc; cases hc
    | subtract c x c' _ hc _ =>
      unfold Currency.subtract at hc
      cases hpr : parseRun x c.psettings true with
      | ok p =>
        rw [hpr] at hc
        cases hc
        exact newCurrencyNum_int _ _
      | nan => rw [hpr] at hc; cases hc
      | err => rw [hpr] at hc; cases hc
    | multiply c q _ _ => exact newCurrencyNum_int _ _
    | divide c x c' _ hc _ =>
      unfold Currency.divide at hc
      cases hpr : parseRun x c.psettings false with
      | ok p =>
        rw [hpr] at hc
        dsimp only at hc
        by_cases hp : p = 0
        · rw [if_pos hp] at hc; cases hc
        · rw [if_neg hp] at hc
          cases hc
          exact newCurrencyNum_int _ _
      | nan => rw [hpr] at hc; cases hc
      | err => rw [hpr] at hc; cases hc
    | distributeMem c n c' _ hc _ =>
      exact distributeLoop_mem_int _ _ _ _ n _ c' hc
  · intro c₁ c₂ h1 h2 h3
    cases c₁ with
    | mk i₁ v₁ s₁ P₁ =>
      cases c₂ with
      | mk i₂ v₂ s₂ P₂ =>
        simp only at h1 h2 h3
        subst h1
        subst h2
        subst h3
        exact ⟨fun _ => rfl, fun _ => rfl, fun _ => rfl, fun _ => rfl, fun _ => rfl⟩

/-- Witness for C8 at a constructor output. -/
theorem C8_intValue_integer_witness :
    ∃ n : ℤ, (currencyOfNum (3 / 2) (resolveSettings {})).intValue = (n : ℚ) :=
  C8_intValue_integer.1 (currencyOfNum (3 / 2) (resolveSettings {}))
    (Reachable.ctor (.num (3 / 2)) {} (currencyOfNum (3 / 2) (resolveSettings {})) rfl)

/-! ### dollars and cents (C10) -/

theorem jsTrunc_intCast (n : ℤ) : jsTrunc (n : ℚ) = n := by
  unfold jsTrunc jsFloor jsCeil
  by_cases h : (n : ℚ) < 0
  · rw [if_pos h, ← Int.cast_neg, Int.floor_intCast]
    ring
  · rw [if_neg h, Int.floor_intCast]

/-- `ToInt32` is the identity on integers that fit in 32-bit two's complement. -/
theorem bmod_small {x : ℤ} (h1 : -(2 ^ 31) ≤ x) (h2 : x < 2 ^ 31) :
    Int.bmod x (2 ^ 32) = x := by
  rw [Int.bmod_def]
  push_cast
  omega

theorem pow10_natCast (p : ℕ) : pow10 p = ((10 ^ p : ℕ) : ℚ) := by
  unfold pow10
  push_cast
  rfl

/-- C10 (amended): when the display value fits below `2^31` AND the precision
is at most 9 (so a remainder of smallest units also fits in 32 bits and the
`~~` conversions do not wrap), `dollars() * 10^precision + cents()` recovers
the scaled amount exactly, and for a negative amount both accessors are
non-positive (both truncate toward zero). -/
theorem C10_dollars_cents (c : Currency) (h : CurrencyWF c)
    (hb : |c.value| < 2 ^ 31) (hp9 : c.psettings.precision ≤ 9) :
    (c.dollars : ℚ) * pow10 c.psettings.precision + (c.cents : ℚ) = c.intValue ∧
      (c.intValue < 0 → c.dollars ≤ 0 ∧ c.cents ≤ 0) := by
  obtain ⟨hs, hP, ⟨N, hN⟩, hv⟩ := h
  set p := c.psettings.precision with hpdef
  have hDpos : (0 : ℤ) < (10 : ℤ) ^ p := by positivity
  have hDQ : (0 : ℚ) < ((10 ^ p : ℕ) : ℚ) := by positivity
  have hD9 : (10 : ℕ) ^ p ≤ 10 ^ 9 := Nat.pow_le_pow_right (by norm_num) hp9
  have hD31 : ((10 : ℤ) ^ p) ≤ 2 ^ 31 := by
    calc ((10 : ℤ) ^ p) ≤ (10 : ℤ) ^ 9 := by exact_mod_cast hD9
    _ ≤ 2 ^ 31 := by norm_num
  have hval : c.value = (N : ℚ) / ((10 ^ p : ℕ) : ℚ) := by
    rw [hv, hN, hP, pow10_natCast]
  have hbv : |(N : ℚ) / ((10 ^ p : ℕ) : ℚ)| < 2 ^ 31 := by rw [← hval]; exact hb
  have hcast : ((10 ^ p : ℕ) : ℤ) = (10 : ℤ) ^ p := by push_cast; rfl
  by_cases hNn : 0 ≤ N
  · -- non-negative amount: trunc is floor, remainder is `emod`
    have hq0 : (0 : ℚ) ≤ (N : ℚ) / ((10 ^ p : ℕ) : ℚ) :=
      div_nonneg (by exact_mod_cast hNn) (le_of_lt hDQ)
    have hT : jsTrunc ((N : ℚ) / ((10 ^ p : ℕ) : ℚ)) = N / ((10 : ℤ) ^ p) := by
      unfold jsTrunc jsFloor
      rw [if_neg (not_lt.mpr hq0), Rat.floor_intCast_div_natCast, hcast]
    have hE0 : 0 ≤ N / ((10 : ℤ) ^ p) := Int.ediv_nonneg hNn (le_of_lt hDpos)
    have hE31 : N / ((10 : ℤ) ^ p) < 2 ^ 31 := by
      have h1 := Int.floor_le ((N : ℚ) / ((10 ^ p : ℕ) : ℚ))
      rw [Rat.floor_intCast_div_natCast, hcast] at h1
      have h2 : (N : ℚ) / ((10 ^ p : ℕ) : ℚ) < 2 ^ 31 := lt_of_abs_lt hbv
      have h3 : ((N / ((10 : ℤ) ^ p) : ℤ) : ℚ) < ((2 ^ 31 : ℤ) : ℚ) := by push_cast; linarith
      exact_mod_cast h3
    have hdollars : c.dollars = N / ((10 : ℤ) ^ p) := by
      unfold Currency.dollars toInt32
      rw [hval, hT]
      exact bmod_small (by linarith) hE31
    have hR : jsRem c.intValue c.pprecision = ((N % ((10 : ℤ) ^ p) : ℤ) : ℚ) := by
      unfold jsRem
      rw [hN, hP, pow10_natCast, if_neg (ne_of_gt hDQ), hT, Int.emod_def]
      push_cast
      ring
    have hR0 : 0 ≤ N % ((10 : ℤ) ^ p) := Int.emod_nonneg N (ne_of_gt hDpos)
    have hRlt : N % ((10 : ℤ) ^ p) < (10 : ℤ) ^ p := Int.emod_lt_of_pos N hDpos
    have hcents : c.cents = N % ((10 : ℤ) ^ p) := by
      unfold Currency.cents toInt32
      rw [hR, jsTrunc_intCast]
      exact bmod_small (by linarith) (by linarith)
    constructor
    · rw [hdollars, hcents, hN, pow10_natCast]
      have h4 : ((10 : ℤ) ^ p) * (N / ((10 : ℤ) ^ p)) + N % ((10 : ℤ) ^ p) = N :=
        Int.ediv_add_emod N ((10 : ℤ) ^ p)
      have h4Q : ((10 : ℚ)) ^ p * ((N / ((10 : ℤ) ^ p) : ℤ) : ℚ)
          + ((N % ((10 : ℤ) ^ p) : ℤ) : ℚ) = (N : ℚ) := by exact_mod_cast h4
      push_cast
      push_cast at h4Q
      linarith
    · intro hneg
      rw [hN] at hneg
      have : N < 0 := by exact_mod_cast hneg
      omega
  · -- negative amount: trunc is ceil, remainder is `-((-N) % 10^p)`
    push_neg at hNn
    have hq0 : (N : ℚ) / ((10 ^ p : ℕ) : ℚ) < 0 :=
      div_neg_of_neg_of_pos (by exact_mod_cast hNn) hDQ
    have hnegdiv : -((N : ℚ) / ((10 ^ p : ℕ) : ℚ)) = ((-N : ℤ) : ℚ) / ((10 ^ p : ℕ) : ℚ) := by
      push_cast
      ring
    have hT : jsTrunc ((N : ℚ) / ((10 ^ p : ℕ) : ℚ)) = -((-N) / ((10 : ℤ) ^ p)) := by
      unfold jsTrunc jsCeil
      rw [if_pos hq0, hnegdiv, Rat.floor_intCast_div_natCast, hcast]
    have hE0 : 0 ≤ (-N) / ((10 : ℤ) ^ p) := Int.ediv_nonneg (by omega) (le_of_lt hDpos)
    have hE31 : (-N) / ((10 : ℤ) ^ p) < 2 ^ 31 := by
      have h1 := Int.floor_le (((-N : ℤ) : ℚ) / ((10 ^ p : ℕ) : ℚ))
      rw [Rat.floor_intCast_div_natCast, hcast] at h1
      have h2 : ((-N : ℤ) : ℚ) / ((10 ^ p : ℕ) : ℚ) < 2 ^ 31 := by
        rw [← hnegdiv]
        have := neg_lt_of_abs_lt hbv
        linarith
      have h3 : (((-N) / ((10 : ℤ) ^ p) : ℤ) : ℚ) < ((2 ^ 31 : ℤ) : ℚ) := by push_cast; linarith
      exact_mod_cast h3
    have hdollars : c.dollars = -((-N) / ((10 : ℤ) ^ p)) := by
      unfold Currency.dollars toInt32
      rw [hval, hT]
      exact bmod_small (by linarith) (by linarith)
    have hR : jsRem c.intValue c.pprecision = -(((-N) % ((10 : ℤ) ^ p) : ℤ) : ℚ) := by
      unfold jsRem
      rw [hN, hP, pow10_natCast, if_neg (ne_of_gt hDQ), hT, Int.emod_def]
      push_cast
      ring
    have hR0 : 0 ≤ (-N) % ((10 : ℤ) ^ p) := Int.emod_nonneg (-N) (ne_of_gt hDpos)
    have hRlt : (-N) % ((10 : ℤ) ^ p) < (10 : ℤ) ^ p := Int.emod_lt_of_pos (-N) hDpos
    have hcents : c.cents = -((-N) % ((10 : ℤ) ^ p)) := by
      unfold Currency.cents toInt32
      have hcast2 : -(((-N) % ((10 : ℤ) ^ p) : ℤ) : ℚ) = ((-((-N) % ((10 : ℤ) ^ p)) : ℤ) : ℚ) := by
        push_cast
        ring
      rw [hR, hcast2, jsTrunc_intCast]
      exact bmod_small (by linarith) (by linarith)
    constructor
    · rw [hdollars, hcents, hN, pow10_natCast]
      have h4 : ((10 : ℤ) ^ p) * ((-N) / ((10 : ℤ) ^ p)) + (-N) % ((10 : ℤ) ^ p) = -N :=
        Int.ediv_add_emod (-N) ((10 : ℤ) ^ p)
      have h4Q : ((10 : ℚ)) ^ p * (((-N) / ((10 : ℤ) ^ p) : ℤ) : ℚ)
          + (((-N) % ((10 : ℤ) ^ p) : ℤ) : ℚ) = ((-N : ℤ) : ℚ) := by exact_mod_cast h4
      push_cast
      push_cast at h4Q
      linarith
    · intro _
      exact ⟨by rw [hdollars]; omega, by rw [hcents]; omega⟩

/-- A currency value built at precision 10: `Currency(0.9999999999, {precision: 10})`. -/
def bigPrecSettings : Settings := resolveSettings { precision := some 10 }

/-- Its scaled amount `9999999999` does not fit in 32 bits. -/
def bigPrecExample : Currency :=
  currencyOfNum (((9999999999 : ℤ) : ℚ) / pow10 bigPrecSettings.precision) bigPrecSettings

theorem bigPrecExample_intValue : bigPrecExample.intValue = ((9999999999 : ℤ) : ℚ) :=
  parseNum_scaled bigPrecSettings 9999999999

theorem bigPrecExample_value : bigPrecExample.value = ((9999999999 : ℤ) : ℚ) / pow10 10 := by
  show parseNum (((9999999999 : ℤ) : ℚ) / pow10 bigPrecSettings.precision) bigPrecSettings true
      / pow10 bigPrecSettings.precision = _
  rw [parseNum_scaled]
  rfl

theorem bigPrecExample_trunc : jsTrunc (((9999999999 : ℤ) : ℚ) / pow10 10) = 0 := by
  unfold jsTrunc jsFloor pow10
  rw [if_neg (not_lt.mpr (by positivity))]
  norm_num

theorem bigPrecExample_dollars : bigPrecExample.dollars = 0 := by
  unfold Currency.dollars toInt32
  rw [bigPrecExample_value, bigPrecExample_trunc]
  decide

theorem bigPrecExample_cents : bigPrecExample.cents = 1410065407 := by
  unfold Currency.cents toInt32
  have hrem : jsRem bigPrecExample.intValue bigPrecExample.pprecision
      = ((9999999999 : ℤ) : ℚ) := by
    unfold jsRem
    have hP : bigPrecExample.pprecision = pow10 10 := rfl
    rw [bigPrecExample_intValue, hP, if_neg (pow10_ne_zero 10), bigPrecExample_trunc]
    norm_num
  rw [hrem, jsTrunc_intCast]
  decide

/-- C10 counterexample: at precision 10 the display value `0.9999999999` is
far below `2^31`, yet `cents()` wraps in the 32-bit conversion
(`~~9999999999 = 1410065407`), so `dollars() * 10^precision + cents()` does
not recover the scaled amount. -/
theorem C10_counterexample :
    |bigPrecExample.value| < 2 ^ 31 ∧
      (bigPrecExample.dollars : ℚ) * pow10 bigPrecExample.psettings.precision
          + (bigPrecExample.cents : ℚ) ≠ bigPrecExample.intValue := by
  constructor
  · rw [bigPrecExample_value]
    rw [abs_of_nonneg (by unfold pow10; push_cast; positivity)]
    push_cast
    norm_num [pow10]
  · have hprec : bigPrecExample.psettings.precision = 10 := rfl
    rw [bigPrecExample_dollars, bigPrecExample_cents, bigPrecExample_intValue, hprec]
    norm_num [pow10]

/-- The claim's example value `-1.25` at the default precision 2. -/
def centsExample : Currency :=
  currencyOfNum (((-125 : ℤ) : ℚ) / pow10 (resolveSettings {}).precision) (resolveSettings {})

theorem centsExample_intValue : centsExample.intValue = ((-125 : ℤ) : ℚ) :=
  parseNum_scaled (resolveSettings {}) (-125)

theorem centsExample_value : centsExample.value = ((-125 : ℤ) : ℚ) / pow10 2 := by
  show parseNum (((-125 : ℤ) : ℚ) / pow10 (resolveSettings {}).precision) (resolveSettings {})
      true / pow10 (resolveSettings {}).precision = _
  rw [parseNum_scaled]
  rfl

theorem centsExample_bound : |centsExample.value| < 2 ^ 31 := by
  rw [centsExample_value]
  rw [abs_of_nonpos (by push_cast; norm_num [pow10])]
  push_cast
  norm_num [pow10]

theorem centsExample_trunc : jsTrunc (((-125 : ℤ) : ℚ) / pow10 2) = -1 := by
  unfold jsTrunc jsCeil jsFloor pow10
  rw [if_pos (by push_cast; norm_num)]
  push_cast
  norm_num

theorem centsExample_dollars : centsExample.dollars = -1 := by
  unfold Currency.dollars toInt32
  rw [centsExample_value, centsExample_trunc]
  decide

theorem centsExample_cents : centsExample.cents = -25 := by
  unfold Currency.cents toInt32
  have hrem : jsRem centsExample.intValue centsExample.pprecision = ((-25 : ℤ) : ℚ) := by
    unfold jsRem
    have hP : centsExample.pprecision = pow10 2 := rfl
    rw [centsExample_intValue, hP, if_neg (pow10_ne_zero 2), centsExample_trunc]
    push_cast
    norm_num [pow10]
  rw [hrem, jsTrunc_intCast]
  decide

/-- Witness for C10 at the claim's own example `-1.25`, precision 2:
the identity holds and `dollars() = -1`, `cents() = -25`. -/
theorem C10_dollars_cents_witness :
    |centsExample.value| < 2 ^ 31 ∧
      (centsExample.dollars : ℚ) * pow10 centsExample.psettings.precision
          + (centsExample.cents : ℚ) = centsExample.intValue ∧
      centsExample.dollars = -1 ∧ centsExample.cents = -25 :=
  ⟨centsExample_bound,
    (C10_dollars_cents centsExample
      (currencyOfNum_wf _ (resolveSettings_resolved {})) centsExample_bound (by decide)).1,
    centsExample_dollars, centsExample_cents⟩

/-! ### Rendering with toFixed (C9, C6) -/

theorem natCast_pow10 (f : ℕ) : ((10 ^ f : ℕ) : ℚ) = (10 : ℚ) ^ f := by
  push_cast
  rfl

/-- `toFixed` on an exactly representable scaled value `m / 10^f`: sign,
integer digit block, decimal point, and `f` zero-padded fractional digits. -/
theorem toFixedChars_scaled (m : ℤ) (f : ℕ) :
    toFixedChars ((m : ℚ) / ((10 ^ f : ℕ) : ℚ)) f =
      (if m < 0 then ['-'] else []) ++
        (if f = 0 then natToChars m.natAbs
         else natToChars (m.natAbs / 10 ^ f) ++ '.' :: padZeros f (natToChars (m.natAbs % 10 ^ f))) := by
  have hD : (0 : ℚ) < ((10 ^ f : ℕ) : ℚ) := by positivity
  have habs : |(m : ℚ) / ((10 ^ f : ℕ) : ℚ)| = ((m.natAbs : ℕ) : ℚ) / ((10 ^ f : ℕ) : ℚ) := by
    rw [abs_div, abs_of_pos hD, Int.cast_natAbs, Int.cast_abs]
  have hfloor : ⌊|(m : ℚ) / ((10 ^ f : ℕ) : ℚ)| * 10 ^ f + 1 / 2⌋ = ((m.natAbs : ℕ) : ℤ) := by
    rw [habs, natCast_pow10, div_mul_cancel₀ _ (by positivity : ((10 : ℚ) ^ f) ≠ 0)]
    have hc : ((m.natAbs : ℕ) : ℚ) = (((m.natAbs : ℕ) : ℤ) : ℚ) := (Int.cast_natCast _).symm
    rw [hc, floor_intCast_add_half]
  have hiff : ((m : ℚ) / ((10 ^ f : ℕ) : ℚ) < 0) ↔ m < 0 := by
    constructor
    · intro h
      by_contra hm
      push_neg at hm
      exact absurd (div_nonneg (by exact_mod_cast hm) (le_of_lt hD)) (not_le.mpr h)
    · intro hm
      exact div_neg_of_neg_of_pos (by exact_mod_cast hm) hD
  simp only [toFixedChars]
  rw [hfloor]
  have htoNat : ((m.natAbs : ℕ) : ℤ).toNat = m.natAbs := Int.toNat_natCast _
  rw [htoNat]
  by_cases hm : m < 0
  · rw [if_pos (hiff.mpr hm), if_pos hm]
    rfl
  · rw [if_neg (fun hx => hm (hiff.mp hx)), if_neg hm]
    rfl

/-- C9: `Currency(1234567, {useVedic: true}).format()` renders as
`"12,34,567.00"` — rightmost group of three digits, then groups of two. -/
theorem C9_vedic_format :
    ∃ c : Currency, currencyCtor (.num 1234567) { useVedic := some true } = .ok c ∧
      c.formatOp none = "12,34,567.00" := by
  refine ⟨currencyOfNum 1234567 (resolveSettings { useVedic := some true }), rfl, ?_⟩
  have hp : (resolveSettings { useVedic := some true }).precision = 2 := rfl
  have hint : (currencyOfNum 1234567 (resolveSettings { useVedic := some true })).intValue
      = ((123456700 : ℤ) : ℚ) := by
    show parseNum (1234567 : ℚ) (resolveSettings { useVedic := some true }) true = _
    have h1 : (1234567 : ℚ) = ((1234567 : ℤ) : ℚ) := by norm_num
    rw [h1, parseNum_intCast, hp]
    norm_num
  have harg : roundingInc
        ((currencyOfNum 1234567 (resolveSettings { useVedic := some true })).intValue
          / (currencyOfNum 1234567 (resolveSettings { useVedic := some true })).pprecision)
        (resolveSettings { useVedic := some true }).increment
      = ((123456700 : ℤ) : ℚ) / ((10 ^ 2 : ℕ) : ℚ) := by
    have hP : (currencyOfNum 1234567 (resolveSettings { useVedic := some true })).pprecision
        = pow10 2 := rfl
    have hinc : (resolveSettings { useVedic := some true }).increment = 1 / pow10 2 := rfl
    rw [hint, hP, hinc]
    unfold roundingInc
    have h2 : ((123456700 : ℤ) : ℚ) / pow10 2 / (1 / pow10 2) = ((123456700 : ℤ) : ℚ) := by
      unfold pow10
      push_cast
      norm_num
    rw [h2, jsRound_intCast, pow10_natCast]
    push_cast
    ring
  have htoStr : (currencyOfNum 1234567 (resolveSettings { useVedic := some true })).toStr
      = "1234567.00" := by
    unfold Currency.toStr
    rw [currencyOfNum_psettings, currencyOfNum_pprecision] at *
    rw [currencyOfNum_intValue] at hint
    unfold jsToFixed
    rw [show pow10 (resolveSettings { useVedic := some true }).precision = pow10 2 from rfl] at *
    rw [harg, hp, toFixedChars_scaled]
    decide
  have hval0 : (0 : ℚ) ≤ (currencyOfNum 1234567 (resolveSettings { useVedic := some true })).value := by
    show (0 : ℚ) ≤ parseNum (1234567 : ℚ) (resolveSettings { useVedic := some true }) true
        / pow10 (resolveSettings { useVedic := some true }).precision
    rw [show parseNum (1234567 : ℚ) (resolveSettings { useVedic := some true }) true
        = ((123456700 : ℤ) : ℚ) from hint]
    unfold pow10
    positivity
  simp only [Currency.formatOp]
  rw [currencyOfNum_psettings, htoStr, if_pos hval0]
  decide

/-! ### Digit-string lemmas for the round-trip (C6) -/

/-- Little-endian value of a digit list. -/
def valLE : List ℕ → ℕ
  | [] => 0
  | d :: ds => d + 10 * valLE ds

theorem toDigitsRev_val : ∀ fuel n : ℕ, n ≤ fuel → valLE (toDigitsRev fuel n) = n := by
  intro fuel
  induction fuel with
  | zero =>
    intro n h
    interval_cases n
    rfl
  | succ f ih =>
    intro n h
    by_cases hn : n = 0
    · subst hn
      rfl
    · show valLE (if n = 0 then [] else n % 10 :: toDigitsRev f (n / 10)) = n
      rw [if_neg hn]
      show n % 10 + 10 * valLE (toDigitsRev f (n / 10)) = n
      rw [ih (n / 10) (by omega)]
      omega

theorem toDigitsRev_lt : ∀ fuel n d : ℕ, d ∈ toDigitsRev fuel n → d < 10 := by
  intro fuel
  induction fuel with
  | zero => intro n d h; simp [toDigitsRev] at h
  | succ f ih =>
    intro n d h
    by_cases hn : n = 0
    · subst hn; simp [toDigitsRev] at h
    · simp only [toDigitsRev, if_neg hn, List.mem_cons] at h
      cases h with
      | inl h => subst h; omega
      | inr h => exact ih (n / 10) d h

theorem toDigitsRev_length : ∀ fuel n k : ℕ, n < 10 ^ k → n ≤ fuel →
    (toDigitsRev fuel n).length ≤ k := by
  intro fuel
  induction fuel with
  | zero => intro n k h1 h2; interval_cases n; simp [toDigitsRev]
  | succ f ih =>
    intro n k h1 h2
    by_cases hn : n = 0
    · subst hn; simp [toDigitsRev]
    · simp only [toDigitsRev, if_neg hn, List.length_cons]
      cases k with
      | zero => simp at h1; omega
      | succ k0 =>
        have hdiv : n / 10 < 10 ^ k0 := by
          rw [Nat.div_lt_iff_lt_mul (by norm_num)]
          calc n < 10 ^ (k0 + 1) := h1
          _ = 10 ^ k0 * 10 := by ring
        have := ih (n / 10) k0 hdiv (by omega)
        omega

theorem digitVal_digitChr {d : ℕ} (h : d < 10) : digitVal (digitChr d) = d := by
  interval_cases d <;> decide

theorem isDigit_digitChr {d : ℕ} (h : d < 10) : (digitChr d).isDigit = true := by
  interval_cases d <;> decide

theorem digitsValL_append_singleton (l : List Char) (c : Char) :
    digitsValL (l ++ [c]) = 10 * digitsValL l + digitVal c := by
  unfold digitsValL
  rw [List.foldl_append]
  rfl

theorem digitsValL_reverse_map {ds : List ℕ} (h : ∀ d ∈ ds, d < 10) :
    digitsValL ((ds.map digitChr).reverse) = valLE ds := by
  induction ds with
  | nil => rfl
  | cons d ds ih =>
    simp only [List.map_cons, List.reverse_cons]
    rw [digitsValL_append_singleton, ih (fun x hx => h x (List.mem_cons_of_mem d hx)),
      digitVal_digitChr (h d (List.mem_cons_self d ds))]
    show 10 * valLE ds + d = d + 10 * valLE ds
    omega

theorem natToChars_isDigit (n : ℕ) : ∀ c ∈ natToChars n, c.isDigit := by
  intro c hc
  unfold natToChars at hc
  by_cases hn : n = 0
  · rw [if_pos hn] at hc
    simp at hc
    subst hc
    decide
  · rw [if_neg hn] at hc
    rw [List.mem_reverse, List.mem_map] at hc
    obtain ⟨d, hd, rfl⟩ := hc
    exact isDigit_digitChr (toDigitsRev_lt n n d hd)

theorem digitsValL_natToChars (n : ℕ) : digitsValL (natToChars n) = n := by
  unfold natToChars
  by_cases hn : n = 0
  · rw [if_pos hn, hn]
    decide
  · rw [if_neg hn, digitsValL_reverse_map (fun d hd => toDigitsRev_lt n n d hd),
      toDigitsRev_val n n le_rfl]

theorem natToChars_ne_nil (n : ℕ) : natToChars n ≠ [] := by
  unfold natToChars
  by_cases hn : n = 0
  · rw [if_pos hn]
    simp
  · rw [if_neg hn]
    cases n with
    | zero => exact absurd rfl hn
    | succ k =>
      show ((toDigitsRev (k + 1) (k + 1)).map digitChr).reverse ≠ []
      simp only [toDigitsRev, if_neg (Nat.succ_ne_zero k)]
      simp

theorem natToChars_length_le {n k : ℕ} (h1 : n < 10 ^ k) (hk : 1 ≤ k) :
    (natToChars n).length ≤ k := by
  unfold natToChars
  by_cases hn : n = 0
  · rw [if_pos hn]
    simpa using hk
  · rw [if_neg hn]
    simp only [List.length_reverse, List.length_map]
    exact toDigitsRev_length n n k h1 le_rfl

theorem foldl_digits_replicate_zero (k : ℕ) :
    List.foldl (fun a c => 10 * a + digitVal c) 0 (List.replicate k '0') = 0 := by
  induction k with
  | zero => rfl
  | succ m ih =>
    rw [List.replicate_succ, List.foldl_cons]
    exact ih

theorem digitsValL_padZeros (f : ℕ) (cs : List Char) :
    digitsValL (padZeros f cs) = digitsValL cs := by
  unfold padZeros digitsValL
  rw [List.foldl_append, foldl_digits_replicate_zero]

theorem padZeros_length {f : ℕ} {cs : List Char} (h : cs.length ≤ f) :
    (padZeros f cs).length = f := by
  unfold padZeros
  simp only [List.length_append, List.length_replicate]
  omega

theorem padZeros_isDigit {f : ℕ} {cs : List Char} (h : ∀ c ∈ cs, c.isDigit) :
    ∀ c ∈ padZeros f cs, c.isDigit := by
  intro c hc
  unfold padZeros at hc
  rw [List.mem_append] at hc
  cases hc with
  | inl hrep =>
    rw [List.eq_of_mem_replicate hrep]
    decide
  | inr hcs => exact h c hcs

theorem splitDots_ne_nil (cs : List Char) : splitDots cs ≠ [] := by
  cases cs with
  | nil => simp [splitDots]
  | cons c rest =>
    unfold splitDots
    by_cases hc : c = '.'
    · rw [if_pos hc]; simp
    · rw [if_neg hc]
      cases splitDots rest <;> simp

theorem splitDots_no_dot {cs : List Char} (h : ∀ c ∈ cs, c ≠ '.') : splitDots cs = [cs] := by
  induction cs with
  | nil => rfl
  | cons c rest ih =>
    unfold splitDots
    rw [if_neg (h c (List.mem_cons_self c rest))]
    rw [ih (fun x hx => h x (List.mem_cons_of_mem c hx))]

theorem splitDots_cons (c : Char) (rest : List Char) :
    splitDots (c :: rest) =
      if c = '.' then [] :: splitDots rest
      else
        match splitDots rest with
        | [] => [[c]]
        | g :: gs => (c :: g) :: gs := by
  rw [splitDots.eq_def]

theorem splitDots_append {A B : List Char} (hA : ∀ c ∈ A, c ≠ '.') :
    splitDots (A ++ '.' :: B) = A :: splitDots B := by
  induction A with
  | nil =>
    show splitDots ('.' :: B) = [] :: splitDots B
    rw [splitDots_cons, if_pos rfl]
  | cons a A ih =>
    show splitDots (a :: (A ++ '.' :: B)) = (a :: A) :: splitDots B
    rw [splitDots_cons, if_neg (hA a (List.mem_cons_self a A)),
      ih (fun x hx => hA x (List.mem_cons_of_mem a hx))]

theorem splitDots_eq_single {cs ip : List Char} (h : splitDots cs = [ip]) :
    cs = ip ∧ ∀ c ∈ ip, c ≠ '.' := by
  induction cs generalizing ip with
  | nil =>
    simp only [splitDots] at h
    cases h
    exact ⟨rfl, by simp⟩
  | cons c rest ih =>
    unfold splitDots at h
    by_cases hc : c = '.'
    · rw [if_pos hc] at h
      cases hrest : splitDots rest with
      | nil => exact absurd hrest (splitDots_ne_nil rest)
      | cons g gs => rw [hrest] at h; simp at h
    · rw [if_neg hc] at h
      cases hrest : splitDots rest with
      | nil => exact absurd hrest (splitDots_ne_nil rest)
      | cons g gs =>
        rw [hrest] at h
        simp only [List.cons.injEq] at h
        obtain ⟨hip, hgs⟩ := h
        subst hgs
        obtain ⟨hr, hnd⟩ := ih hrest
        subst hr
        refine ⟨hip.symm ▸ rfl, ?_⟩
        subst hip
        intro x hx
        rcases List.mem_cons.mp hx with hx | hx
        · subst hx; exact hc
        · exact hnd x hx

theorem splitDots_eq_pair {cs ip fp : List Char} (h : splitDots cs = [ip, fp]) :
    cs = ip ++ '.' :: fp ∧ (∀ c ∈ ip, c ≠ '.') ∧ (∀ c ∈ fp, c ≠ '.') := by
  induction cs generalizing ip with
  | nil => simp [splitDots] at h
  | cons c rest ih =>
    unfold splitDots at h
    by_cases hc : c = '.'
    · rw [if_pos hc] at h
      simp only [List.cons.injEq] at h
      obtain ⟨hip, hfp⟩ := h
      subst hip
      obtain ⟨hr, hnd⟩ := splitDots_eq_single hfp
      subst hr
      subst hc
      exact ⟨rfl, by simp, hnd⟩
    · rw [if_neg hc] at h
      cases hrest : splitDots rest with
      | nil => exact absurd hrest (splitDots_ne_nil rest)
      | cons g gs =>
        rw [hrest] at h
        simp only [List.cons.injEq] at h
        obtain ⟨hip, hgs⟩ := h
        subst hgs
        obtain ⟨hr, hip', hfp'⟩ := ih hrest
        subst hr
        subst hip
        refine ⟨rfl, ?_, hfp'⟩
        intro x hx
        rcases List.mem_cons.mp hx with hx | hx
        · subst hx; exact hc
        · exact hip' x hx

theorem jsNumBody_chars {body : List Char} {q : ℚ} (h : jsNumBody body = some q) :
    ∀ c ∈ body, c.isDigit ∨ c = '.' := by
  unfold jsNumBody at h
  cases hsd : splitDots body with
  | nil => exact absurd hsd (splitDots_ne_nil body)
  | cons g gs =>
    rw [hsd] at h
    cases gs with
    | nil =>
      dsimp only at h
      by_cases hcond : g ≠ [] ∧ g.all (·.isDigit)
      · obtain ⟨hb, hnd⟩ := splitDots_eq_single hsd
        subst hb
        intro c hc
        exact Or.inl (List.all_eq_true.mp hcond.2 c hc)
      · rw [if_neg hcond] at h
        cases h
    | cons g2 gs2 =>
      cases gs2 with
      | nil =>
        dsimp only at h
        by_cases hcond : (g ≠ [] ∨ g2 ≠ []) ∧ g.all (·.isDigit) ∧ g2.all (·.isDigit)
        · obtain ⟨hb, _, _⟩ := splitDots_eq_pair hsd
          subst hb
          intro c hc
          rcases List.mem_append.mp hc with hc | hc
          · exact Or.inl (List.all_eq_true.mp hcond.2.1 c hc)
          · rcases List.mem_cons.mp hc with hc | hc
            · exact Or.inr hc
            · exact Or.inl (List.all_eq_true.mp hcond.2.2 c hc)
        · rw [if_neg hcond] at h
          cases h
      | cons g3 gs3 =>
        dsimp only at h
        cases h

theorem jsNumL_chars {cs : List Char} {q : ℚ} (h : jsNumL cs = some q) :
    ∀ c ∈ cs, c = '-' ∨ c.isDigit ∨ c = '.' := by
  cases cs with
  | nil => simp
  | cons c rest =>
    unfold jsNumL at h
    dsimp only at h
    by_cases hc : c = '-'
    · rw [if_pos hc] at h
      obtain ⟨q', hq', _⟩ := Option.map_eq_some'.mp h
      intro x hx
      rcases List.mem_cons.mp hx with hx | hx
      · subst hx; exact Or.inl hc
      · exact Or.inr (jsNumBody_chars hq' x hx)
    · rw [if_neg hc] at h
      intro x hx
      exact Or.inr (jsNumBody_chars h x hx)

theorem isDigit_ne_dot {c : Char} (h : c.isDigit) : c ≠ '.' := by
  intro hc
  subst hc
  exact absurd h (by decide)

theorem isDigit_ne_minus {c : Char} (h : c.isDigit) : c ≠ '-' := by
  intro hc
  subst hc
  exact absurd h (by decide)

/-- Synthesis: the host parses `digits.digits` to the expected value. -/
theorem jsNumBody_pair {ip fp : List Char} (hip : ∀ c ∈ ip, c.isDigit)
    (hfp : ∀ c ∈ fp, c.isDigit) (hne : ip ≠ []) :
    jsNumBody (ip ++ '.' :: fp)
      = some ((digitsValL ip : ℚ) + (digitsValL fp : ℚ) / 10 ^ fp.length) := by
  unfold jsNumBody
  rw [splitDots_append (fun c hc => isDigit_ne_dot (hip c hc)),
    splitDots_no_dot (fun c hc => isDigit_ne_dot (hfp c hc))]
  dsimp only
  rw [if_pos ⟨Or.inl hne, List.all_eq_true.mpr hip, List.all_eq_true.mpr hfp⟩]

/-! ### Cleaning is the identity on parseable strings (C6) -/

theorem takeWhile_ne_all {cs : List Char} {a : Char} (h : ∀ c ∈ cs, c ≠ a) :
    cs.takeWhile (· ≠ a) = cs := by
  induction cs with
  | nil => rfl
  | cons c rest ih =>
    rw [List.takeWhile_cons]
    rw [if_pos (by simpa using h c (List.mem_cons_self c rest))]
    rw [ih (fun x hx => h x (List.mem_cons_of_mem c hx))]

theorem parenReplace_no_paren {cs : List Char} (h : ∀ c ∈ cs, c ≠ '(') :
    parenReplace cs = cs := by
  unfold parenReplace
  rw [takeWhile_ne_all h, if_pos rfl]

theorem map_if_dot_id (l : List Char) :
    l.map (fun c => if c = '.' then '.' else c) = l := by
  induction l with
  | nil => rfl
  | cons c rest ih =>
    rw [List.map_cons, ih]
    by_cases hc : c = '.'
    · rw [if_pos hc, hc]
    · rw [if_neg hc]

theorem cleanData_id {s : String} (h : ∀ c ∈ s.data, c = '-' ∨ c.isDigit ∨ c = '.') :
    cleanData s '.' = s.data := by
  unfold cleanData
  have hnp : ∀ c ∈ s.data, c ≠ '(' := by
    intro c hc heq
    rcases h c hc with h1 | h1 | h1 <;> subst heq
    · cases h1
    · exact absurd h1 (by decide)
    · cases h1
  rw [parenReplace_no_paren hnp]
  have hfil : s.data.filter (fun c => c == '-' || c.isDigit || c == '.') = s.data := by
    rw [List.filter_eq_self]
    intro c hc
    rcases h c hc with h1 | h1 | h1
    · subst h1; decide
    · simp [h1]
    · subst h1; decide
  rw [hfil, map_if_dot_id]

/-! ### The round-trip theorem (C6) -/

/-- Under default settings, `toString` of a currency with integer scaled
amount `n` renders `n / 100` through `toFixed(2)`. -/
theorem toStr_of_int {c : Currency} {n : ℤ}
    (hset : c.psettings = resolveSettings {}) (hP : c.pprecision = pow10 2)
    (hint : c.intValue = (n : ℚ)) :
    c.toStr = ⟨toFixedChars ((n : ℚ) / ((10 ^ 2 : ℕ) : ℚ)) 2⟩ := by
  unfold Currency.toStr jsToFixed
  rw [hset, hP, hint]
  have hinc : (resolveSettings ({} : Opts)).increment = 1 / pow10 2 := rfl
  have hprec : (resolveSettings ({} : Opts)).precision = 2 := rfl
  rw [hinc, hprec]
  congr 1
  unfold roundingInc
  have h1 : ((n : ℚ) / pow10 2) / (1 / pow10 2) = (n : ℚ) := by
    unfold pow10
    field_simp
  rw [h1, jsRound_intCast]
  unfold pow10
  push_cast
  ring_nf

/-- Parsing the `toFixed(2)` rendering of `n / 100` recovers the value. -/
theorem jsNumL_toFixed_scaled (n : ℤ) :
    jsNumL (toFixedChars ((n : ℚ) / ((10 ^ 2 : ℕ) : ℚ)) 2)
      = some ((n : ℚ) / ((10 ^ 2 : ℕ) : ℚ)) := by
  rw [toFixedChars_scaled]
  rw [if_neg (by norm_num : ¬ (2 : ℕ) = 0)]
  have hA_digit : ∀ c ∈ natToChars (n.natAbs / 10 ^ 2), c.isDigit := natToChars_isDigit _
  have hAne : natToChars (n.natAbs / 10 ^ 2) ≠ [] := natToChars_ne_nil _
  have hB_digit : ∀ c ∈ padZeros 2 (natToChars (n.natAbs % 10 ^ 2)), c.isDigit :=
    padZeros_isDigit (natToChars_isDigit _)
  have hBlen : (padZeros 2 (natToChars (n.natAbs % 10 ^ 2))).length = 2 :=
    padZeros_length (natToChars_length_le (Nat.mod_lt _ (by norm_num)) (by norm_num))
  have hbody : jsNumBody (natToChars (n.natAbs / 10 ^ 2) ++ '.' ::
      padZeros 2 (natToChars (n.natAbs % 10 ^ 2)))
      = some (((n.natAbs : ℕ) : ℚ) / ((10 ^ 2 : ℕ) : ℚ)) := by
    rw [jsNumBody_pair hA_digit hB_digit hAne]
    congr 1
    rw [digitsValL_natToChars, digitsValL_padZeros, digitsValL_natToChars, hBlen]
    have hsum : 10 ^ 2 * (n.natAbs / 10 ^ 2) + n.natAbs % 10 ^ 2 = n.natAbs :=
      Nat.div_add_mod n.natAbs (10 ^ 2)
    have hsumQ : (10 : ℚ) ^ 2 * ((n.natAbs / 10 ^ 2 : ℕ) : ℚ) + ((n.natAbs % 10 ^ 2 : ℕ) : ℚ)
        = ((n.natAbs : ℕ) : ℚ) := by exact_mod_cast hsum
    rw [natCast_pow10]
    field_simp
    linarith
  by_cases hn : n < 0
  · rw [if_pos hn]
    show jsNumL ('-' :: (natToChars (n.natAbs / 10 ^ 2) ++ '.' ::
      padZeros 2 (natToChars (n.natAbs % 10 ^ 2)))) = _
    unfold jsNumL
    dsimp only
    rw [if_pos rfl, hbody]
    simp only [Option.map_some', Option.some.injEq]
    have habs : ((n.natAbs : ℕ) : ℚ) = -(n : ℚ) := by
      rw [Int.cast_natAbs, Int.cast_abs, abs_of_neg (by exact_mod_cast hn : (n : ℚ) < 0)]
    rw [habs]
    ring_nf
  · rw [if_neg hn]
    rw [List.nil_append]
    obtain ⟨c0, A', hA⟩ := List.exists_cons_of_ne_nil hAne
    rw [hA, List.cons_append]
    unfold jsNumL
    dsimp only
    have hc0 : c0.isDigit := hA_digit c0 (by rw [hA]; exact List.mem_cons_self c0 A')
    rw [if_neg (isDigit_ne_minus hc0), ← List.cons_append, ← hA, hbody]
    have habs : ((n.natAbs : ℕ) : ℚ) = (n : ℚ) := by
      rw [Int.cast_natAbs, Int.cast_abs,
        abs_of_nonneg (by exact_mod_cast not_lt.mp hn : (0 : ℚ) ≤ (n : ℚ))]
    rw [habs]

/-- C6: for every decimal string the host parser accepts whose value `q` has
at most `precision = 2` fractional digits (`q = n / 100`), construction under
default settings succeeds with scaled amount exactly `n`, and `toString()`
parses back to the same value `q` — i.e. the round trip is exact up to
normalization of leading/trailing zeros. -/
theorem C6_string_roundtrip (s : String) (q : ℚ) (n : ℤ)
    (hq : jsNumL s.data = some q) (hn : q = (n : ℚ) / ((10 ^ 2 : ℕ) : ℚ)) :
    ∃ c : Currency, currencyCtor (.str s) {} = .ok c ∧ c.intValue = (n : ℚ) ∧
      jsNumL c.toStr.data = some q := by
  have hdec : (resolveSettings ({} : Opts)).decimal = '.' := rfl
  have hclean : cleanData s (resolveSettings {}).decimal = s.data := by
    rw [hdec]
    exact cleanData_id (jsNumL_chars hq)
  have hint : parseStr s (resolveSettings {}) true = (n : ℚ) := by
    unfold parseStr
    rw [hclean, hq]
    dsimp only
    have hqn : q * pow10 (resolveSettings ({} : Opts)).precision = (n : ℚ) := by
      have hprec : (resolveSettings ({} : Opts)).precision = 2 := rfl
      rw [hprec, hn, natCast_pow10]
      unfold pow10
      field_simp
    rw [hqn, parseFinish_intCast]
  refine ⟨_, rfl, hint, ?_⟩
  have htos := toStr_of_int
    (c := { intValue := parseStr s (resolveSettings ({} : Opts)) true
            value := parseStr s (resolveSettings ({} : Opts)) true
              / pow10 (resolveSettings ({} : Opts)).precision
            psettings := resolveSettings ({} : Opts)
            pprecision := pow10 (resolveSettings ({} : Opts)).precision })
    (n := n) rfl rfl hint
  rw [htos]
  show jsNumL (toFixedChars ((n : ℚ) / ((10 ^ 2 : ℕ) : ℚ)) 2) = some q
  rw [jsNumL_toFixed_scaled, hn]

theorem jsNumL_one_point_five : jsNumL "1.5".data = some (3 / 2) := by
  show jsNumL ['1', '.', '5'] = some (3 / 2)
  unfold jsNumL
  dsimp only
  rw [if_neg (by decide)]
  unfold jsNumBody
  rw [show splitDots ['1', '.', '5'] = [['1'], ['5']] from by decide]
  dsimp only
  rw [if_pos (by decide)]
  rw [show digitsValL ['1'] = 1 from by decide, show digitsValL ['5'] = 5 from by decide]
  norm_num

/-- Witness for C6 at the concrete string `"1.5"` (value `3/2 = 150 / 100`). -/
theorem C6_string_roundtrip_witness :
    ∃ c : Currency, currencyCtor (.str "1.5") {} = .ok c ∧ c.intValue = ((150 : ℤ) : ℚ) ∧
      jsNumL c.toStr.data = some (3 / 2) :=
  C6_string_roundtrip "1.5" (3 / 2) 150 jsNumL_one_point_five (by norm_num)

end CurrencyTs
